import Mathlib

/-!
Verification of the mcp-dev-standards core: a shallow embedding in Lean 4 of
the document model, the markdown normalizer (`parseMarkdown`), the TTL cache
(`Cache`), the manager (`StandardsManager`), the remote source adapter
(`RemoteSource`) and the search/ranking functions, together with theorems
settling the specification claims about them.

Strings are modelled as lists of characters (`Str`), JavaScript `Map`s as
association lists, asynchronous adapter calls as their (pure) outcomes, and
the wall clock as an explicit `Nat` parameter threaded through the stateful
operations.
-/

namespace DevStandards

/-- Strings of the embedded program, as lists of characters. -/
abbrev Str := List Char

/-- `toLowerCase`: lower-case every character (ASCII, as in Lean core). -/
def lowerStr (s : Str) : Str := s.map Char.toLower

/-- JavaScript `String.prototype.trim`: drop whitespace from both ends. -/
def trimStr (s : Str) : Str :=
  ((s.dropWhile Char.isWhitespace).reverse.dropWhile Char.isWhitespace).reverse

/-- Auxiliary for `splitWs`: accumulate the current (reversed) token. -/
def splitWsAux : Str → Str → List Str
  | [], acc => if acc.isEmpty then [] else [acc.reverse]
  | c :: cs, acc =>
    if c.isWhitespace then
      if acc.isEmpty then splitWsAux cs []
      else acc.reverse :: splitWsAux cs []
    else splitWsAux cs (c :: acc)

/-- JavaScript `query.split(/\s+/).filter(Boolean)`: the maximal runs of
non-whitespace characters, in order. -/
def splitWs (s : Str) : List Str := splitWsAux s []

/-- JavaScript `String.prototype.split(sep)` for a one-character separator:
keeps empty pieces ( `"".split(sep) = [""]` ). -/
def splitOnChar (sep : Char) : Str → List Str
  | [] => [[]]
  | c :: cs =>
    match splitOnChar sep cs with
    | [] => [[]]
    | h :: t => if c = sep then [] :: h :: t else (c :: h) :: t

/-- `content.split('\n')`. -/
def linesOf (s : Str) : List Str := splitOnChar '\n' s

/-- Join lines back with `'\n'`. -/
def joinLines (ls : List Str) : Str := List.intercalate ['\n'] ls

/-- JavaScript truthiness of a possibly-absent string: `undefined`, `null`
and `""` are falsy; every non-empty string is truthy. -/
def jsTruthy : Option Str → Option Str
  | none => none
  | some s => if s.isEmpty then none else some s

/-- `a || b` for a possibly-absent string `a` and a default `b`. -/
def jsOrStr (a : Option Str) (b : Str) : Str := (jsTruthy a).getD b

section TTLCache

variable {T : Type}

/-- `CacheEntry<T>` from `src/types/index.ts`: data, creation instant,
absolute expiry instant (milliseconds). -/
structure CacheEntry (T : Type) where
  data : T
  timestamp : Nat
  expiresAt : Nat
  deriving Repr, DecidableEq

/-- `Map.prototype.get`-style lookup in the backing association list:
first binding of the key. -/
def storeGet (store : List (Str × CacheEntry T)) (k : Str) : Option (CacheEntry T) :=
  match store with
  | [] => none
  | (k₁, e₁) :: rest => if k₁ = k then some e₁ else storeGet rest k

/-- `Map.prototype.set`: overwrite the binding of the key in place, or
append a new binding. -/
def storeSet (store : List (Str × CacheEntry T)) (k : Str) (e : CacheEntry T) :
    List (Str × CacheEntry T) :=
  match store with
  | [] => [(k, e)]
  | (k₁, e₁) :: rest => if k₁ = k then (k, e) :: rest else (k₁, e₁) :: storeSet rest k e

/-- `Map.prototype.delete`: remove the binding of the key. -/
def storeDelete (store : List (Str × CacheEntry T)) (k : Str) :
    List (Str × CacheEntry T) :=
  match store with
  | [] => []
  | (k₁, e₁) :: rest => if k₁ = k then rest else (k₁, e₁) :: storeDelete rest k

/-- The `Cache<T>` object of `src/utils/cache.ts`: a `Map` from string keys
to entries plus the default TTL (milliseconds). -/
structure Cache (T : Type) where
  store : List (Str × CacheEntry T)
  defaultTTL : Nat
  deriving Repr, DecidableEq

/-- `Cache.set(key, data, ttl?)`: store with `expiresAt = now + (ttl ?? defaultTTL)`,
overwriting any prior entry.  `now` is the explicit clock (`Date.now()`). -/
def Cache.set (c : Cache T) (now : Nat) (key : Str) (data : T) (ttl : Option Nat) :
    Cache T :=
  { c with store := storeSet c.store key ⟨data, now, now + ttl.getD c.defaultTTL⟩ }

/-- `Cache.get(key)`: the value if the entry exists and `now ≤ expiresAt`;
otherwise deletes the stale entry (when present) and reports absent.  Returns
the result together with the possibly-updated cache, since `get` mutates on
stale hits. -/
def Cache.get (c : Cache T) (now : Nat) (key : Str) : Option T × Cache T :=
  match storeGet c.store key with
  | none => (none, c)
  | some entry =>
    if now > entry.expiresAt then
      (none, { c with store := storeDelete c.store key })
    else
      (some entry.data, c)

/-- `Cache.delete(key)`. -/
def Cache.del (c : Cache T) (key : Str) : Cache T :=
  { c with store := storeDelete c.store key }

/-- `Cache.clear()`. -/
def Cache.clear (c : Cache T) : Cache T := { c with store := [] }

/-- `Cache.cleanup()`: eagerly sweep every currently-expired entry. -/
def Cache.cleanup (c : Cache T) (now : Nat) : Cache T :=
  { c with store := c.store.filter (fun kv => ¬ now > kv.2.expiresAt) }

/-- `Cache.size()`. -/
def Cache.size (c : Cache T) : Nat := c.store.length

end TTLCache

/-- `SourceType` from `src/types/index.ts`: `'local' | 'remote' | 'git'`. -/
inductive SourceType where
  | «local»
  | remote
  | git
  deriving Repr, DecidableEq

/-- Front-matter values, as produced by the front-matter parser: a scalar
string or a list of strings (YAML sequences such as `tags`). -/
inductive FmValue where
  | str (s : Str)
  | list (l : List Str)
  deriving Repr, DecidableEq

/-- The parsed front-matter map (`data` of `gray-matter`). -/
abbrev FrontMatter := List (Str × FmValue)

/-- `StandardDocument` from `src/types/index.ts`. -/
structure StandardDocument where
  id : Str
  title : Str
  description : Option Str
  category : Str
  subcategory : Option Str
  tags : List Str
  version : Option Str
  lastUpdated : Option Str
  source : SourceType
  path : Str
  content : Str
  frontmatter : FrontMatter
  deriving Repr, DecidableEq

/-- `SearchResult` from `src/types/index.ts`. -/
structure SearchResult where
  id : Str
  title : Str
  description : Option Str
  category : Str
  relevance : Nat
  deriving Repr, DecidableEq

/-- JavaScript `hay.includes(needle)`: `needle` occurs as a contiguous
substring of `hay` (the empty needle always occurs). -/
def strIncludes (needle : Str) : Str → Bool
  | [] => needle.isEmpty
  | c :: rest => needle.isPrefixOf (c :: rest) || strIncludes needle rest

/-- One field-matching loop of `searchStandards`
(`for (const word of queryWords) if (fieldLower.includes(word)) relevance += weight`). -/
def scoreField (fieldLower : Str) (weight : Nat) (queryWords : List Str)
    (acc : Nat) : Nat :=
  queryWords.foldl (fun a w => if strIncludes w fieldLower then a + weight else a) acc

/-- The relevance accumulation of `StandardsManager.searchStandards`
(`src/utils/manager.ts`), field by field in source order: title (+10),
description (+5, only when present), each tag (+7), category (+3),
content (+1). -/
def docRelevance (queryWords : List Str) (doc : StandardDocument) : Nat :=
  let r₁ := scoreField (lowerStr doc.title) 10 queryWords 0
  let r₂ := match doc.description with
    | some desc => scoreField (lowerStr desc) 5 queryWords r₁
    | none => r₁
  let r₃ := doc.tags.foldl (fun a tag => scoreField (lowerStr tag) 7 queryWords a) r₂
  let r₄ := scoreField (lowerStr doc.category) 3 queryWords r₃
  scoreField (lowerStr doc.content) 1 queryWords r₄

/-- The `SearchResult` record pushed by `searchStandards` for a document. -/
def toSearchResult (doc : StandardDocument) (relevance : Nat) : SearchResult :=
  ⟨doc.id, doc.title, doc.description, doc.category, relevance⟩

/-- Stable insertion of one result into a list sorted by descending
relevance: the new element goes before the first element of relevance `≤`
its own. -/
def insertByRelevance (x : SearchResult) : List SearchResult → List SearchResult
  | [] => [x]
  | y :: ys =>
    if y.relevance ≤ x.relevance then x :: y :: ys else y :: insertByRelevance x ys

/-- `results.sort((a, b) => b.relevance - a.relevance)`: JavaScript
`Array.prototype.sort` is stable (ES2019), so with this comparator it is the
unique stable descending order, modelled as stable insertion sort. -/
def sortByRelevance (l : List SearchResult) : List SearchResult :=
  l.foldr insertByRelevance []

/-- `StandardsManager.searchStandards(query)` (`src/utils/manager.ts`):
lower-case the query, split on whitespace dropping empty words, score every
document, keep those with positive relevance, sort by relevance
descending. -/
def searchStandards (documents : List StandardDocument) (query : Str) :
    List SearchResult :=
  let queryLower := lowerStr query
  let queryWords := splitWs queryLower
  let results := documents.filterMap (fun doc =>
    let relevance := docRelevance queryWords doc
    if relevance > 0 then some (toSearchResult doc relevance) else none)
  sortByRelevance results

/-- Claim-side description score for one term: +5 when a description is
present and contains the term, else 0. -/
def descScore (d : Option Str) (term : Str) : Nat :=
  match d with
  | some desc => if strIncludes term (lowerStr desc) then 5 else 0
  | none => 0

/-- Claim-side scoring formula for one term, as the specification words it:
+10 if the term is a substring of the lowercased title, +5 if of the
description, +7 per tag containing it, +3 if of the category, +1 if of the
content. -/
def termRelevance (doc : StandardDocument) (term : Str) : Nat :=
  (if strIncludes term (lowerStr doc.title) then 10 else 0)
  + descScore doc.description term
  + 7 * doc.tags.countP (fun tag => strIncludes term (lowerStr tag))
  + (if strIncludes term (lowerStr doc.category) then 3 else 0)
  + (if strIncludes term (lowerStr doc.content) then 1 else 0)

/-- Claim-side relevance: the sum over query terms of `termRelevance`. -/
def relevanceSpec (terms : List Str) (doc : StandardDocument) : Nat :=
  (terms.map (termRelevance doc)).sum

/-- The query terms: lowercase non-empty whitespace-separated words. -/
def queryTerms (query : Str) : List Str := splitWs (lowerStr query)

/-- Claim-side pre-sort result list: every document scored by the
specification formula, in corpus order, documents of relevance 0 excluded. -/
def rankedMatches (documents : List StandardDocument) (query : Str) :
    List SearchResult :=
  (documents.map (fun d => toSearchResult d (relevanceSpec (queryTerms query) d))).filter
    (fun r => 0 < r.relevance)

/-- One configured source adapter of the manager, represented by the outcome
of its asynchronous `load()`: `Except.ok docs` when the load resolves with
documents, `Except.error ()` when it rejects or throws.  The manager inspects
nothing else of an adapter, so this outcome is a faithful interface. -/
abbrev SourceOutcome := Except Unit (List StandardDocument)

instance : DecidableEq SourceOutcome
  | .ok x, .ok y =>
    match decEq x y with
    | isTrue h => isTrue (by rw [h])
    | isFalse h => isFalse (by intro hc; cases hc; exact h rfl)
  | .ok _, .error _ => isFalse (by intro h; cases h)
  | .error _, .ok _ => isFalse (by intro h; cases h)
  | .error x, .error y =>
    match decEq x y with
    | isTrue h => isTrue (by rw [h])
    | isFalse h => isFalse (by intro hc; cases hc; exact h rfl)

/-- The two configuration fields the manager reads (`config.sources`,
`config.cacheTimeout` in seconds), with each source given by its adapter
outcome. -/
structure StandardsConfig where
  sources : List SourceOutcome
  cacheTimeout : Nat
  deriving DecidableEq

/-- The `StandardsManager` state (`src/utils/manager.ts`): configuration,
cache (constructed with `config.cacheTimeout * 1000` ms default TTL),
current corpus, built adapter list, initialized flag. -/
structure StandardsManager where
  config : StandardsConfig
  cache : Cache (List StandardDocument)
  documents : List StandardDocument
  sources : List SourceOutcome
  initialized : Bool
  deriving DecidableEq

/-- `new StandardsManager(config)`. -/
def newManager (config : StandardsConfig) : StandardsManager :=
  { config := config
    cache := ⟨[], config.cacheTimeout * 1000⟩
    documents := []
    sources := []
    initialized := false }

/-- The cache key `'all-documents'`. -/
def allDocumentsKey : Str := "all-documents".data

/-- The adapter loop of `loadDocuments`: `try { allDocs.push(...await
source.load()) } catch { ... }` — a failing source contributes nothing and
does not abort the loop. -/
def loadFromSources (sources : List SourceOutcome) : List StandardDocument :=
  sources.foldl
    (fun allDocs s =>
      match s with
      | .ok docs => allDocs ++ docs
      | .error _ => allDocs)
    []

/-- `StandardsManager.loadDocuments` at clock `now`: adopt a live
`'all-documents'` cache entry with zero adapter calls, else run every
adapter, concatenate the successes in order, store corpus and cache.  The
second component counts the adapter `load()` invocations performed. -/
def StandardsManager.loadDocuments (m : StandardsManager) (now : Nat) :
    StandardsManager × Nat :=
  match m.cache.get now allDocumentsKey with
  | (some cachedDocs, cache₁) =>
    ({ m with documents := cachedDocs, cache := cache₁ }, 0)
  | (none, cache₁) =>
    let allDocs := loadFromSources m.sources
    ({ m with
        documents := allDocs
        cache := cache₁.set now allDocumentsKey allDocs none },
     m.sources.length)

/-- `StandardsManager.initializeM` at clock `now`: no-op once initialized;
otherwise push one adapter per configured source, load documents, set the
flag.  The second component counts adapter `load()` invocations. -/
def StandardsManager.initializeM (m : StandardsManager) (now : Nat) :
    StandardsManager × Nat :=
  if m.initialized then (m, 0)
  else
    let m₁ := { m with sources := m.sources ++ m.config.sources }
    ({ (m₁.loadDocuments now).1 with initialized := true },
     (m₁.loadDocuments now).2)

/-- `StandardsManager.refresh`: clear the whole cache, then `loadDocuments`. -/
def StandardsManager.refresh (m : StandardsManager) (now : Nat) :
    StandardsManager × Nat :=
  StandardsManager.loadDocuments { m with cache := m.cache.clear } now

/-- `StandardsManager.getStandardById`: first exact id match in the corpus
(`this.documents.find(doc => doc.id === id)`). -/
def StandardsManager.getStandardById (m : StandardsManager) (id : Str) :
    Option StandardDocument :=
  m.documents.find? (fun doc => doc.id = id)

/-- `StandardsManager.getCategories`: de-duplicated categories in first-seen
order (`Set` insertion order in JavaScript). -/
def getCategories (documents : List StandardDocument) : List Str :=
  documents.foldl
    (fun acc doc => if acc.contains doc.category then acc else acc ++ [doc.category])
    []

/-- The message branch taken by `resolveStandard`, abstracting its literal
Chinese message strings. -/
inductive ResolveMessage where
  | emptyQuery
  | noResults (categories : List Str)
  | found (count : Nat)
  deriving Repr, DecidableEq

/-- The return value of `resolveStandard`. -/
structure ResolveOutcome where
  message : ResolveMessage
  results : List SearchResult
  totalCount : Nat
  deriving Repr, DecidableEq

/-- `resolveStandard(manager, query)` (`src/tools/resolve-standard.ts`):
reject empty/whitespace queries; search with the trimmed query; on no match
report the available categories; otherwise return the top 10 results
(`results.slice(0, 10)`, re-packaged field by field, which is the identity)
and the pre-truncation total count. -/
def resolveStandard (documents : List StandardDocument) (query : Str) :
    ResolveOutcome :=
  if query.isEmpty || (trimStr query).isEmpty then
    ⟨.emptyQuery, [], 0⟩
  else
    let results := searchStandards documents (trimStr query)
    if results.isEmpty then
      ⟨.noResults (getCategories documents), [], 0⟩
    else
      ⟨.found results.length, results.take 10, results.length⟩

/-- Build a concrete document for test corpora (remaining fields empty). -/
def sampleDoc (id title : Str) (description : Option Str) (category : Str)
    (tags : List Str) (content : Str) : StandardDocument :=
  { id := id
    title := title
    description := description
    category := category
    subcategory := none
    tags := tags
    version := none
    lastUpdated := none
    source := SourceType.«local»
    path := []
    content := content
    frontmatter := [] }

/-- A concrete Vue document, for evaluating search end to end. -/
def docVue : StandardDocument :=
  sampleDoc "frontend-vue-components".data "vue components".data
    (some "vue guide".data) "frontend".data ["vue".data] "# vue".data

/-- A concrete document for the configured source of the C10 scenario. -/
def docC10 : StandardDocument :=
  sampleDoc "backend-api".data "api rules".data none "backend".data [] "# api".data

/-- A document with id `dup` contributed by the earlier source. -/
def docFirstSource : StandardDocument :=
  sampleDoc "dup".data "from first source".data none "a".data [] "x".data

/-- A document with the same id `dup` contributed by the later source. -/
def docSecondSource : StandardDocument :=
  sampleDoc "dup".data "from second source".data none "b".data [] "y".data

/-- A manager whose loaded corpus holds the two colliding documents, the
earlier source's first. -/
def mgrDup : StandardsManager :=
  { config := ⟨[], 0⟩
    cache := ⟨[], 0⟩
    documents := [docFirstSource, docSecondSource]
    sources := []
    initialized := true }

/-- Split a string at the first occurrence of a character; `none` when the
character does not occur. -/
def breakAtChar (c : Char) : Str → Option (Str × Str)
  | [] => none
  | x :: xs =>
    if x = c then some ([], xs)
    else
      match breakAtChar c xs with
      | none => none
      | some (a, b) => some (x :: a, b)

/-- Join lines with `'\n'` (inverse of `linesOf`). -/
def joinLinesRec : List Str → Str
  | [] => []
  | [l] => l
  | l :: rest => l ++ '\n' :: joinLinesRec rest

/-- Parse one front-matter line as a `key: value` pair (key before the
first colon, both sides trimmed); lines without a colon are ignored. -/
def fmParseLine (line : Str) : Option (Str × FmValue) :=
  match breakAtChar ':' line with
  | none => none
  | some (k, v) => some (trimStr k, FmValue.str (trimStr v))

/-- Split a line list at the first `---` line; `none` when absent. -/
def splitAtDelim : List Str → Option (List Str × List Str)
  | [] => none
  | l :: ls =>
    if l = ('-' :: '-' :: '-' :: []) then some ([], ls)
    else
      match splitAtDelim ls with
      | none => none
      | some (a, b) => some (l :: a, b)

/-- Modelled from the spec: the front-matter split that `parseMarkdown`
delegates to the `gray-matter` dependency (not part of this repository).
Per the specification it splits an optional leading front-matter block of
`key: value` pairs, delimited by `---` lines, from the body; it is total:
an absent opening delimiter or an unclosed block yields no front matter and
leaves the text untouched. -/
def matterSplit (raw : Str) : FrontMatter × Str :=
  match linesOf raw with
  | [] => ([], raw)
  | first :: rest =>
    if first = ('-' :: '-' :: '-' :: []) then
      match splitAtDelim rest with
      | some (fmLines, bodyLines) =>
        (fmLines.filterMap fmParseLine, joinLinesRec bodyLines)
      | none => ([], raw)
    else ([], raw)

/-- The front-matter map of `matter(content)`. -/
def matterData (raw : Str) : FrontMatter := (matterSplit raw).1

/-- The body (`content`) of `matter(content)`. -/
def matterContent (raw : Str) : Str := (matterSplit raw).2

/-- First binding of a key in the front-matter map. -/
def fmLookup (fm : FrontMatter) (key : Str) : Option FmValue :=
  match fm with
  | [] => none
  | (k, v) :: rest => if k = key then some v else fmLookup rest key

/-- A front-matter value as a scalar string, when it is one. -/
def fmStr (fm : FrontMatter) (key : Str) : Option Str :=
  match fmLookup fm key with
  | some (.str s) => some s
  | _ => none

/-- The path-derived metadata of `extractPathInfo` (`src/utils/parser.ts`). -/
structure PathInfo where
  category : Str
  subcategory : Option Str
  filename : Str
  deriving Repr, DecidableEq

/-- `filePath.replace(/\\/g, '/')`. -/
def normalizeSlashes (s : Str) : Str :=
  s.map (fun c => if c = '\\' then '/' else c)

/-- `.replace(/^\.?\//, '')`: strip a leading `./` or `/`. -/
def stripDotSlash : Str → Str
  | '.' :: '/' :: rest => rest
  | '/' :: rest => rest
  | s => s

/-- `.replace(/^standards\//, '')`. -/
def stripStandards (s : Str) : Str :=
  if ("standards/".data).isPrefixOf s then s.drop ("standards/".data).length else s

/-- `.replace(/\.md$/i, '')`: strip a trailing `.md`, case-insensitively —
note that `.markdown` is not stripped. -/
def stripMdExt (s : Str) : Str :=
  match s.reverse with
  | d :: m :: '.' :: rest =>
    if d.toLower = 'd' ∧ m.toLower = 'm' then rest.reverse else s
  | _ => s

/-- `.replace(/\//g, '-')`. -/
def hyphenate (s : Str) : Str :=
  s.map (fun c => if c = '/' then '-' else c)

/-- `extractPathInfo` (`src/utils/parser.ts`): category, subcategory and
extension-less filename derived from the path. -/
def extractPathInfo (filePath : Str) : PathInfo :=
  let normalizedPath := normalizeSlashes filePath
  let cleanPath := stripDotSlash normalizedPath
  let parts₀ := splitOnChar '/' cleanPath
  let parts := if parts₀.head? = some ("standards".data) then parts₀.tail else parts₀
  let filename := jsOrStr (parts.getLast?.map stripMdExt) ("unknown".data)
  let category := jsOrStr parts.head? ("custom".data)
  let subcategory := if parts.length > 2 then parts[1]? else none
  ⟨category, subcategory, filename⟩

/-- `generateId` (`src/utils/parser.ts`): normalize separators, strip a
leading `./` or `/`, strip a leading `standards/`, strip a trailing `.md`,
turn `/` into `-`, lowercase. -/
def generateId (filePath : Str) : Str :=
  let normalizedPath := normalizeSlashes filePath
  let cleanPath := stripMdExt (stripStandards (stripDotSlash normalizedPath))
  lowerStr (hyphenate cleanPath)

/-- One line matched against `/^#\s+(.+)$/` with the captured group
trimmed, as `extractTitle` does: `#`, at least one whitespace, at least one
further character. -/
def matchTitleLine : Str → Option Str
  | '#' :: c :: rest =>
    if c.isWhitespace then
      let tail := List.dropWhile Char.isWhitespace (c :: rest)
      if tail.isEmpty then
        if rest.isEmpty then none else some []
      else some (trimStr tail)
    else none
  | _ => none

/-- `extractTitle` (`src/utils/parser.ts`): first level-1 heading. -/
def extractTitle (content : Str) : Option Str :=
  (linesOf content).findSome? matchTitleLine

/-- The line loop of `extractDescription`: skip blank lines, headings, code
fences and list items; return the first ordinary line (truncated to 200
characters plus an ellipsis) once a title was seen or the content does not
begin with a heading. -/
def extractDescriptionGo (content : Str) : List Str → Bool → Option Str
  | [], _ => none
  | line :: rest, foundTitle =>
    let trimmedLine := trimStr line
    if trimmedLine.isEmpty then extractDescriptionGo content rest foundTitle
    else if trimmedLine.head? = some '#' then extractDescriptionGo content rest true
    else if ("```".data).isPrefixOf trimmedLine then
      extractDescriptionGo content rest foundTitle
    else if trimmedLine.head? = some '-' ∨ trimmedLine.head? = some '*' then
      extractDescriptionGo content rest foundTitle
    else if foundTitle ∨ ¬ (trimStr content).head? = some '#' then
      if trimmedLine.length > 200 then some (trimmedLine.take 200 ++ "...".data)
      else some trimmedLine
    else extractDescriptionGo content rest foundTitle

/-- `extractDescription` (`src/utils/parser.ts`). -/
def extractDescription (content : Str) : Option Str :=
  extractDescriptionGo content (linesOf content) false

/-- `normalizeTags` (`src/utils/parser.ts`): absent/empty → `[]`; an array
→ trimmed non-empty entries; a string → comma-split, trimmed, non-empty. -/
def normalizeTags : Option FmValue → List Str
  | none => []
  | some (.str s) =>
    if s.isEmpty then []
    else ((splitOnChar ',' s).map trimStr).filter (fun t => ¬ t.isEmpty)
  | some (.list l) => (l.map trimStr).filter (fun t => ¬ t.isEmpty)

/-- `isValidMarkdown` (`src/utils/parser.ts`): non-empty after trimming. -/
def isValidMarkdown (content : Str) : Bool :=
  !(trimStr content).isEmpty

/-- `parseMarkdown` (`src/utils/parser.ts`): split front matter, derive id,
title, description, category/subcategory, tags; the `content` field is the
body with front matter removed, trimmed. Total by construction. -/
def parseMarkdown (content : Str) (filePath : Str) (source : SourceType) :
    StandardDocument :=
  let frontmatter := matterData content
  let markdownContent := matterContent content
  let pathInfo := extractPathInfo filePath
  { id := jsOrStr (fmStr frontmatter ("id".data)) (generateId filePath)
    title := jsOrStr (fmStr frontmatter ("title".data))
        (jsOrStr (extractTitle markdownContent) pathInfo.filename)
    description := (jsTruthy (fmStr frontmatter ("description".data))).orElse
        (fun _ => extractDescription markdownContent)
    category := jsOrStr (fmStr frontmatter ("category".data)) pathInfo.category
    subcategory := (jsTruthy (fmStr frontmatter ("subcategory".data))).orElse
        (fun _ => pathInfo.subcategory)
    tags := normalizeTags (fmLookup frontmatter ("tags".data))
    version := fmStr frontmatter ("version".data)
    lastUpdated := (jsTruthy (fmStr frontmatter ("lastUpdated".data))).orElse
        (fun _ => fmStr frontmatter ("last_updated".data))
    source := source
    path := filePath
    content := trimStr markdownContent
    frontmatter := frontmatter }

/-- The id derivation exactly as the amended claim words it: backslashes
normalized, a leading `./` or `/` stripped, a leading `standards/` segment
stripped, a trailing `.md` extension stripped case-insensitively (a
`.markdown` extension is not stripped), path separators replaced by
hyphens, lowercased. -/
def deriveIdAmended (filePath : Str) : Str :=
  lowerStr (hyphenate (stripMdExt (stripStandards (stripDotSlash
    (normalizeSlashes filePath)))))

/-- Strip a trailing `.md` or `.markdown` extension, case-insensitively. -/
def stripMdOrMarkdownExt (s : Str) : Str :=
  if (".markdown".data).isSuffixOf (lowerStr s) then
    s.take (s.length - (".markdown".data).length)
  else if (".md".data).isSuffixOf (lowerStr s) then
    s.take (s.length - (".md".data).length)
  else s

/-- The id derivation as the original claim words it, with the `.markdown`
extension stripped as well. -/
def deriveIdClaim (filePath : Str) : Str :=
  lowerStr (hyphenate (stripMdOrMarkdownExt (stripStandards (stripDotSlash
    (normalizeSlashes filePath)))))

/-- `RemoteDocConfig` (`types/index.ts` / remote source): one explicitly
configured remote Markdown document. -/
structure RemoteDocConfig where
  url : Str
  category : Option Str
  subcategory : Option Str
  deriving Repr, DecidableEq

/-- `RemoteStandard`: one record of the JSON API response. -/
structure RemoteStandard where
  id : Str
  title : Str
  description : Option Str
  category : Str
  subcategory : Option Str
  tags : Option (List Str)
  content : Str
  version : Option Str
  lastUpdated : Option Str
  deriving Repr, DecidableEq

/-- `RemoteStandardsResponse`: top-level JSON object with optional
`standards` and `data` arrays. -/
structure RemoteStandardsResponse where
  standards : Option (List RemoteStandard)
  data : Option (List RemoteStandard)
  deriving Repr, DecidableEq

/-- The network, as the outcomes `fetch` would produce: the raw body text
per URL (`none` for a non-2xx response or network failure) and the parsed
JSON body per URL (`none` for non-2xx, network failure or unparsable
body). -/
structure FetchEnv where
  fetchText : Str → Option Str
  fetchJson : Str → Option RemoteStandardsResponse

/-- The `RemoteSource` fields: url, headers, explicit docs list. -/
structure RemoteSource where
  url : Str
  headers : List (Str × Str)
  docs : List RemoteDocConfig

/-- `RemoteSource.isMarkdownUrl`: the lowercased URL ends in `.md` or
`.markdown`. -/
def isMarkdownUrl (url : Str) : Bool :=
  (".md".data).isSuffixOf (lowerStr url) || (".markdown".data).isSuffixOf (lowerStr url)

/-- The text after the first `://`, or `none` (an URL without a scheme
separator makes `new URL` throw). -/
def dropThroughScheme : Str → Option Str
  | [] => none
  | ':' :: '/' :: '/' :: rest => some rest
  | _ :: rest => dropThroughScheme rest

/-- Modelled from the spec: `new URL(u).pathname` of an absolute http(s)
URL (a platform builtin, not repository code) — the part from the first
`/` after the host up to any query or fragment, `/` when absent. -/
def urlPathname (u : Str) : Option Str :=
  match dropThroughScheme u with
  | none => none
  | some rest =>
    let afterHost := rest.dropWhile (fun c => c ≠ '/')
    let path := afterHost.takeWhile (fun c => c ≠ '?' ∧ c ≠ '#')
    some (if path.isEmpty then ['/'] else path)

/-- `RemoteSource.loadMarkdownFile`: fetch one URL as raw Markdown; reject
failed fetches and invalid bodies; build the relative path from the
configured category/subcategory and the URL's file name; parse; override
the document path with the URL. -/
def loadMarkdownFile (env : FetchEnv) (config : RemoteDocConfig) :
    Option StandardDocument :=
  match env.fetchText config.url with
  | none => none
  | some content =>
    if isValidMarkdown content then
      match urlPathname config.url with
      | none => none
      | some urlPath =>
        let fileName := jsOrStr ((splitOnChar '/' urlPath).getLast?) ("remote.md".data)
        let category := jsOrStr config.category ("custom".data)
        let subcategory := jsOrStr config.subcategory []
        let relativePath :=
          if ¬ subcategory.isEmpty then
            category ++ '/' :: subcategory ++ '/' :: fileName
          else category ++ '/' :: fileName
        let doc := parseMarkdown content relativePath SourceType.remote
        some { doc with path := config.url }
    else none

/-- The record loop of `RemoteSource.transformStandards`: skip records with
empty/invalid content; normalize records whose content starts with the
front-matter delimiter `---`; use the other records directly as fully
formed documents. -/
def transformStandards (url : Str) (standards : List RemoteStandard) :
    List StandardDocument :=
  standards.foldl
    (fun documents standard =>
      if standard.content.isEmpty || !isValidMarkdown standard.content then
        documents
      else if ("---".data).isPrefixOf standard.content then
        documents ++ [parseMarkdown standard.content
          (standard.category ++ '/' :: standard.id ++ (".md".data)) SourceType.remote]
      else
        documents ++ [{ id := standard.id
                        title := standard.title
                        description := standard.description
                        category := standard.category
                        subcategory := standard.subcategory
                        tags := standard.tags.getD []
                        version := standard.version
                        lastUpdated := standard.lastUpdated
                        source := SourceType.remote
                        path := url ++ '/' :: standard.id
                        content := standard.content
                        frontmatter := [] }])
    []

/-- `RemoteSource.loadFromApi`: fetch the URL as JSON, read `standards`
else `data` else `[]`, transform; failures yield `[]`. -/
def loadFromApi (env : FetchEnv) (src : RemoteSource) : List StandardDocument :=
  match env.fetchJson src.url with
  | none => []
  | some respData =>
    transformStandards src.url (respData.standards.getD (respData.data.getD []))

/-- `RemoteSource.load`: mode 1 — explicit docs list; mode 2 — the URL
itself is a Markdown file; mode 3 — JSON API. -/
def remoteLoad (env : FetchEnv) (src : RemoteSource) : List StandardDocument :=
  if ¬ src.docs.isEmpty then
    src.docs.filterMap (loadMarkdownFile env)
  else if isMarkdownUrl src.url then
    (loadMarkdownFile env ⟨src.url, none, none⟩).toList
  else
    loadFromApi env src

/-- Claim-side handling of one JSON-API record: skipped when its content is
empty/invalid, normalized via `parseMarkdown` when the content starts with
the front-matter delimiter, used directly as a fully formed document
otherwise. -/
def recordToDoc (url : Str) (standard : RemoteStandard) :
    Option StandardDocument :=
  if standard.content.isEmpty || !isValidMarkdown standard.content then none
  else if ("---".data).isPrefixOf standard.content then
    some (parseMarkdown standard.content
      (standard.category ++ '/' :: standard.id ++ (".md".data)) SourceType.remote)
  else
    some { id := standard.id
           title := standard.title
           description := standard.description
           category := standard.category
           subcategory := standard.subcategory
           tags := standard.tags.getD []
           version := standard.version
           lastUpdated := standard.lastUpdated
           source := SourceType.remote
           path := url ++ '/' :: standard.id
           content := standard.content
           frontmatter := [] }

/-- A network where only `https://h/a.md` resolves, to raw Markdown. -/
def envMd : FetchEnv :=
  { fetchText := fun u =>
      if u = ("https://h/a.md".data) then some ("# remote doc".data) else none
    fetchJson := fun _ => none }

/-- A remote source whose URL itself is a Markdown file and whose explicit
docs list is empty. -/
def srcMd : RemoteSource := ⟨"https://h/a.md".data, [], []⟩

/-! ### Theorems -/

theorem storeGet_storeSet_same {T : Type} (store : List (Str × CacheEntry T))
    (k : Str) (e : CacheEntry T) : storeGet (storeSet store k e) k = some e := by
  induction store with
  | nil => simp [storeSet, storeGet]
  | cons kv rest ih =>
    obtain ⟨k₁, e₁⟩ := kv
    by_cases h : k₁ = k
    · simp [storeSet, storeGet, h]
    · simp [storeSet, storeGet, h, ih]

/-- C2: `Cache.set` stores the entry with expiry `now + ttl` (respectively
`now + defaultTTL` when no TTL is given), overwriting any prior entry under
the key; a subsequent `Cache.get` at time `t` returns the stored value
exactly when `t ≤ now + ttl`, and when `t > now + ttl` it deletes the stale
entry from the store and reports absent; in particular `set(key, v, 1000)`
followed by a read at clock `1100` reports absent. -/
theorem claim_C2_cache_ttl {T : Type} (c : Cache T) (now : Nat) (key : Str)
    (v : T) (ttl t : Nat) :
    storeGet ((c.set now key v (some ttl)).store) key = some ⟨v, now, now + ttl⟩
    ∧ storeGet ((c.set now key v none).store) key = some ⟨v, now, now + c.defaultTTL⟩
    ∧ (c.set now key v (some ttl)).get t key =
        (if t ≤ now + ttl then some v else none,
         if t ≤ now + ttl then c.set now key v (some ttl)
         else { c.set now key v (some ttl) with
                store := storeDelete (c.set now key v (some ttl)).store key })
    ∧ (((Cache.mk [] 3600000 : Cache T).set 0 key v (some 1000)).get 1100 key).1
        = none := by
  refine ⟨?_, ?_, ?_, ?_⟩
  · simpa [Cache.set] using storeGet_storeSet_same c.store key ⟨v, now, now + ttl⟩
  · simpa [Cache.set] using
      storeGet_storeSet_same c.store key ⟨v, now, now + c.defaultTTL⟩
  · have hget := storeGet_storeSet_same c.store key ⟨v, now, now + ttl⟩
    by_cases h : t ≤ now + ttl
    · simp [Cache.get, Cache.set, hget, h, Nat.not_lt.mpr h]
    · have h₂ : t > now + ttl := Nat.lt_of_not_le h
      simp [Cache.get, Cache.set, hget, h, h₂]
  · simp [Cache.get, Cache.set, storeSet, storeGet]

theorem sum_map_add {α : Type} (f g : α → Nat) (l : List α) :
    (l.map (fun x => f x + g x)).sum = (l.map f).sum + (l.map g).sum := by
  induction l with
  | nil => simp
  | cons a t ih => simp [ih]; omega

theorem sum_map_ite_const {α : Type} (q : α → Bool) (k : Nat) (l : List α) :
    (l.map (fun x => if q x then k else 0)).sum = k * l.countP q := by
  induction l with
  | nil => simp
  | cons a t ih =>
    by_cases h : q a <;>
      simp [List.countP_cons, h, ih, Nat.mul_add, Nat.mul_one]
    omega

theorem sum_map_mul_const {α : Type} (f : α → Nat) (k : Nat) (l : List α) :
    (l.map (fun x => k * f x)).sum = k * (l.map f).sum := by
  induction l with
  | nil => simp
  | cons a t ih => simp [ih, Nat.mul_add]

theorem countP_eq_sum_map {α : Type} (q : α → Bool) (l : List α) :
    l.countP q = (l.map (fun x => if q x then 1 else 0)).sum := by
  rw [sum_map_ite_const, Nat.one_mul]

theorem countP_sum_comm {α β : Type} (p : α → β → Bool) (l₁ : List α)
    (l₂ : List β) :
    (l₁.map (fun a => l₂.countP (p a))).sum
      = (l₂.map (fun b => l₁.countP (fun a => p a b))).sum := by
  induction l₁ with
  | nil => simp [List.countP_nil]
  | cons a t ih =>
    have h₁ : (l₂.map (fun b => t.countP (fun x => p x b) + if p a b then 1 else 0)).sum
        = (l₂.map (fun b => t.countP (fun x => p x b))).sum
          + (l₂.map (fun b => if p a b then 1 else 0)).sum :=
      sum_map_add _ _ l₂
    simp only [List.map_cons, List.sum_cons, List.countP_cons, h₁, ih,
      ← countP_eq_sum_map]
    omega

theorem sum_map_zero {α : Type} (l : List α) :
    (l.map (fun _ => (0 : Nat))).sum = 0 := by
  induction l with
  | nil => rfl
  | cons a t ih => simp [ih]

theorem scoreField_eq_countP (fieldLower : Str) (weight : Nat)
    (queryWords : List Str) (acc : Nat) :
    scoreField fieldLower weight queryWords acc
      = acc + weight * queryWords.countP (fun w => strIncludes w fieldLower) := by
  induction queryWords generalizing acc with
  | nil => simp [scoreField]
  | cons w ws ih =>
    simp only [scoreField, List.foldl_cons] at ih ⊢
    rw [ih]
    by_cases h : strIncludes w fieldLower
    · simp [h, List.countP_cons, Nat.mul_add, Nat.mul_one]
      ring
    · simp [h, List.countP_cons, Nat.mul_add, Nat.mul_one]

theorem foldl_add_mul {α : Type} (f : α → Nat) (k : Nat) (l : List α)
    (acc : Nat) :
    l.foldl (fun a x => a + k * f x) acc = acc + k * (l.map f).sum := by
  induction l generalizing acc with
  | nil => simp
  | cons x t ih =>
    simp only [List.foldl_cons, List.map_cons, List.sum_cons]
    rw [ih]
    ring

/-- The code's field-by-field relevance accumulation equals the claim's
term-by-term sum. -/
theorem docRelevance_eq_relevanceSpec (queryWords : List Str)
    (doc : StandardDocument) :
    docRelevance queryWords doc = relevanceSpec queryWords doc := by
  have hswap := countP_sum_comm
    (fun (w tag : Str) => strIncludes w (lowerStr tag)) queryWords doc.tags
  have hspec : relevanceSpec queryWords doc
      = 10 * queryWords.countP (fun w => strIncludes w (lowerStr doc.title))
        + (queryWords.map (descScore doc.description)).sum
        + 7 * (doc.tags.map
            (fun tag => queryWords.countP (fun w => strIncludes w (lowerStr tag)))).sum
        + 3 * queryWords.countP (fun w => strIncludes w (lowerStr doc.category))
        + 1 * queryWords.countP (fun w => strIncludes w (lowerStr doc.content)) := by
    unfold relevanceSpec termRelevance
    rw [sum_map_add, sum_map_add, sum_map_add, sum_map_add]
    rw [sum_map_ite_const, sum_map_ite_const, sum_map_ite_const]
    rw [sum_map_mul_const, ← hswap]
  rw [hspec]
  cases hd : doc.description with
  | none =>
    have h0 : descScore (none : Option Str) = fun _ : Str => (0 : Nat) := by
      funext t; rfl
    simp only [docRelevance, hd, h0, scoreField_eq_countP, sum_map_zero]
    rw [foldl_add_mul]
    ring
  | some desc =>
    have h5 : descScore (some desc)
        = fun t => if strIncludes t (lowerStr desc) then (5 : Nat) else 0 := by
      funext t; rfl
    simp only [docRelevance, hd, h5, scoreField_eq_countP, sum_map_ite_const]
    rw [foldl_add_mul]
    ring

theorem mem_insertByRelevance (x a : SearchResult) (l : List SearchResult) :
    a ∈ insertByRelevance x l ↔ a = x ∨ a ∈ l := by
  induction l with
  | nil => simp [insertByRelevance]
  | cons y ys ih =>
    by_cases h : y.relevance ≤ x.relevance
    · simp only [insertByRelevance, if_pos h, List.mem_cons]
    · simp only [insertByRelevance, if_neg h, List.mem_cons, ih]
      tauto

theorem pairwise_insertByRelevance (x : SearchResult) (l : List SearchResult)
    (hl : l.Pairwise (fun a b => b.relevance ≤ a.relevance)) :
    (insertByRelevance x l).Pairwise (fun a b => b.relevance ≤ a.relevance) := by
  induction l with
  | nil => simp [insertByRelevance]
  | cons y ys ih =>
    rcases List.pairwise_cons.mp hl with ⟨hy, hys⟩
    by_cases h : y.relevance ≤ x.relevance
    · rw [insertByRelevance, if_pos h]
      refine List.pairwise_cons.mpr ⟨?_, hl⟩
      intro z hz
      rcases List.mem_cons.mp hz with rfl | hz₂
      · exact h
      · exact le_trans (hy z hz₂) h
    · rw [insertByRelevance, if_neg h]
      refine List.pairwise_cons.mpr ⟨?_, ih hys⟩
      intro z hz
      rcases (mem_insertByRelevance x z ys).mp hz with rfl | hz₂
      · exact Nat.le_of_lt (Nat.lt_of_not_le h)
      · exact hy z hz₂

theorem pairwise_sortByRelevance (l : List SearchResult) :
    (sortByRelevance l).Pairwise (fun a b => b.relevance ≤ a.relevance) := by
  induction l with
  | nil => exact List.Pairwise.nil
  | cons x xs ih => exact pairwise_insertByRelevance x _ ih

theorem filter_insertByRelevance_pos (x : SearchResult) (l : List SearchResult)
    (v : Nat) (hx : x.relevance = v) :
    (insertByRelevance x l).filter (fun r => r.relevance = v)
      = x :: l.filter (fun r => r.relevance = v) := by
  induction l with
  | nil => simp [insertByRelevance, hx]
  | cons y ys ih =>
    by_cases h : y.relevance ≤ x.relevance
    · rw [insertByRelevance, if_pos h]
      simp [List.filter_cons, hx]
    · rw [insertByRelevance, if_neg h]
      have hy : ¬ y.relevance = v := by
        intro hv
        exact h (by omega)
      simp [List.filter_cons, hy, ih]

theorem filter_insertByRelevance_neg (x : SearchResult) (l : List SearchResult)
    (v : Nat) (hx : ¬ x.relevance = v) :
    (insertByRelevance x l).filter (fun r => r.relevance = v)
      = l.filter (fun r => r.relevance = v) := by
  induction l with
  | nil => simp [insertByRelevance, hx]
  | cons y ys ih =>
    by_cases h : y.relevance ≤ x.relevance
    · rw [insertByRelevance, if_pos h]
      simp [List.filter_cons, hx]
    · rw [insertByRelevance, if_neg h]
      simp [List.filter_cons, ih]

theorem filter_sortByRelevance (l : List SearchResult) (v : Nat) :
    (sortByRelevance l).filter (fun r => r.relevance = v)
      = l.filter (fun r => r.relevance = v) := by
  induction l with
  | nil => rfl
  | cons x xs ih =>
    show (insertByRelevance x (sortByRelevance xs)).filter _ = _
    by_cases hx : x.relevance = v
    · rw [filter_insertByRelevance_pos x _ v hx, ih]
      simp [List.filter_cons, hx]
    · rw [filter_insertByRelevance_neg x _ v hx, ih]
      simp [List.filter_cons, hx]

theorem filterMap_scored (documents : List StandardDocument)
    (queryWords : List Str) :
    (documents.filterMap (fun doc =>
        let relevance := docRelevance queryWords doc
        if relevance > 0 then some (toSearchResult doc relevance) else none))
      = (documents.map (fun d => toSearchResult d (relevanceSpec queryWords d))).filter
          (fun r => 0 < r.relevance) := by
  induction documents with
  | nil => rfl
  | cons d ds ih =>
    simp only [docRelevance_eq_relevanceSpec, gt_iff_lt, toSearchResult] at ih ⊢
    simp only [List.filterMap_cons, List.map_cons, List.filter_cons]
    by_cases h : 0 < relevanceSpec queryWords d
    · simp [h, ih]
    · simp [h, ih]

theorem searchStandards_eq_sortRanked (documents : List StandardDocument)
    (query : Str) :
    searchStandards documents query
      = sortByRelevance (rankedMatches documents query) :=
  congrArg sortByRelevance (filterMap_scored documents (splitWs (lowerStr query)))

/-- C1: for every corpus and query, `searchStandards` equals the stable
descending sort of the documents scored by the specification's per-term
formula (`relevanceSpec`, summed over the lowercase non-empty whitespace
terms of the query) with zero-relevance documents excluded; the output is
sorted by relevance descending; and among documents of equal relevance the
corpus order is preserved (for every relevance value, filtering the output
to that value yields exactly the corpus-ordered matches of that value). -/
theorem claim_C1_searchStandards (documents : List StandardDocument)
    (query : Str) :
    searchStandards documents query
        = sortByRelevance (rankedMatches documents query)
    ∧ (searchStandards documents query).Pairwise
        (fun a b => b.relevance ≤ a.relevance)
    ∧ ∀ v : Nat,
        (searchStandards documents query).filter (fun r => r.relevance = v)
          = (rankedMatches documents query).filter (fun r => r.relevance = v) := by
  have hmain := searchStandards_eq_sortRanked documents query
  refine ⟨hmain, ?_, ?_⟩
  · rw [hmain]
    exact pairwise_sortByRelevance _
  · intro v
    rw [hmain, filter_sortByRelevance]

theorem loadFromSources_aux (sources : List SourceOutcome)
    (acc : List StandardDocument) :
    sources.foldl
        (fun allDocs s =>
          match s with
          | .ok docs => allDocs ++ docs
          | .error _ => allDocs)
        acc
      = acc ++ (sources.filterMap Except.toOption).flatten := by
  induction sources generalizing acc with
  | nil => simp
  | cons s rest ih =>
    cases s with
    | ok docs =>
      simp only [List.foldl_cons, List.filterMap_cons, Except.toOption,
        List.flatten_cons, ih, List.append_assoc]
    | error e =>
      simp only [List.foldl_cons, List.filterMap_cons, Except.toOption, ih]

/-- C3: during a corpus load, a rejected source contributes zero documents
and does not abort the others — the adapter loop produces exactly the
concatenation, in declared source order, of the document lists of the
sources whose `load()` succeeded; in particular with three sources of which
the middle one throws, the corpus is the concatenation of the other two. -/
theorem claim_C3_partial_failure (sources : List SourceOutcome)
    (l₁ l₃ : List StandardDocument) :
    loadFromSources sources = (sources.filterMap Except.toOption).flatten
    ∧ loadFromSources [Except.ok l₁, Except.error (), Except.ok l₃] = l₁ ++ l₃ := by
  constructor
  · simpa [loadFromSources] using loadFromSources_aux sources []
  · rfl

theorem initialize_sets_flag (m : StandardsManager) (t : Nat) :
    ((m.initializeM t).1).initialized = true := by
  unfold StandardsManager.initializeM
  by_cases h : m.initialized = true
  · simp [h]
  · simp [h]

theorem initialize_of_initialized (m : StandardsManager) (t : Nat)
    (h : m.initialized = true) : m.initializeM t = (m, 0) := by
  unfold StandardsManager.initializeM
  simp [h]

/-- C6: `initialize()` is idempotent — after one `initialize()` call (which
always leaves the initialized flag set), a second call with no intervening
`refresh()` returns the state entirely unchanged (corpus, sources list,
cache contents, flag) and performs zero adapter `load()` invocations. -/
theorem claim_C6_initialize_idempotent (m : StandardsManager) (t₁ t₂ t₀ : Nat)
    (config : StandardsConfig) :
    ((m.initializeM t₁).1.initializeM t₂) = ((m.initializeM t₁).1, 0)
    ∧ ((m.initializeM t₁).1).initialized = true
    ∧ ((newManager config).initializeM t₀).2 = config.sources.length := by
  refine ⟨initialize_of_initialized _ t₂ (initialize_sets_flag m t₁),
    initialize_sets_flag m t₁, ?_⟩
  unfold newManager StandardsManager.initializeM StandardsManager.loadDocuments
    Cache.get
  simp [storeGet]

theorem find?_append_first {α : Type} (p : α → Bool) (pre post : List α)
    (d : α) (hd : p d = true) (hpre : ∀ x ∈ pre, p x = false) :
    (pre ++ d :: post).find? p = some d := by
  induction pre with
  | nil => simp [List.find?_cons, hd]
  | cons x rest ih =>
    have hx := hpre x (by simp)
    simp only [List.cons_append, List.find?_cons, hx]
    exact ih (fun y hy => hpre y (by simp [hy]))

/-- C8 (amended): id collisions in a loaded corpus are resolved
first-match-wins — `getStandardById` returns the document contributed by
the earlier source in declared array order (the first corpus occurrence of
the id), not the later one. -/
theorem claim_C8_amended (m : StandardsManager) (pre post : List StandardDocument)
    (d : StandardDocument) (i : Str) (hdocs : m.documents = pre ++ d :: post)
    (hd : d.id = i) (hpre : ∀ x ∈ pre, x.id ≠ i) :
    m.getStandardById i = some d := by
  unfold StandardsManager.getStandardById
  rw [hdocs]
  apply find?_append_first
  · simp [hd]
  · intro x hx
    simp [hpre x hx]

/-- C8 counterexample: with two documents of id `dup` in corpus order
(first source's, then second source's), `getStandardById` returns the
earlier source's document, not — as the claim states — the later one. -/
theorem claim_C8_counterexample :
    mgrDup.getStandardById ("dup".data) = some docFirstSource
    ∧ mgrDup.getStandardById ("dup".data) ≠ some docSecondSource := by
  constructor
  · rfl
  · decide

/-- C8 witness: concrete corpus `[docC10, docFirstSource, docSecondSource]`
looked up at id `dup` yields the first source's colliding document. -/
theorem claim_C8_witness :
    ({ mgrDup with documents := [docC10, docFirstSource, docSecondSource] }
        : StandardsManager).getStandardById ("dup".data) = some docFirstSource := by
  have h := claim_C8_amended
    { mgrDup with documents := [docC10, docFirstSource, docSecondSource] }
    [docC10] [docSecondSource] docFirstSource ("dup".data) rfl (by decide)
    (by decide)
  exact h

theorem rankedMatches_nil_query (documents : List StandardDocument) :
    rankedMatches documents [] = [] := by
  unfold rankedMatches queryTerms
  induction documents with
  | nil => rfl
  | cons d ds ih =>
    simp only [List.map_cons, List.filter_cons] at ih ⊢
    have hrel : relevanceSpec (splitWs (lowerStr ([] : Str))) d = 0 := rfl
    simp only [toSearchResult, hrel, ih]
    simp
    intro a _
    rfl

theorem searchStandards_nil_query (documents : List StandardDocument) :
    searchStandards documents [] = [] := by
  rw [searchStandards_eq_sortRanked, rankedMatches_nil_query]
  rfl

/-- C9: for every query whose (trimmed) search matches at least one
document, `resolveStandard` returns exactly the first 10 of the ranked
`searchStandards` results, in that order, while `totalCount` reports the
full pre-truncation number of matches. -/
theorem claim_C9_resolveStandard (documents : List StandardDocument)
    (query : Str) (h : searchStandards documents (trimStr query) ≠ []) :
    (resolveStandard documents query).results
        = (searchStandards documents (trimStr query)).take 10
    ∧ (resolveStandard documents query).totalCount
        = (searchStandards documents (trimStr query)).length
    ∧ (resolveStandard documents query).results.length ≤ 10 := by
  have hq : (query.isEmpty || (trimStr query).isEmpty) = false := by
    rcases hql : query.isEmpty with _ | _
    · rcases hqt : (trimStr query).isEmpty with _ | _
      · simp [hql, hqt]
      · exfalso
        apply h
        rw [List.isEmpty_iff] at hqt
        rw [hqt]
        exact searchStandards_nil_query documents
    · exfalso
      apply h
      rw [List.isEmpty_iff] at hql
      subst hql
      exact searchStandards_nil_query documents
  have hres : (searchStandards documents (trimStr query)).isEmpty = false := by
    rcases hr : (searchStandards documents (trimStr query)).isEmpty with _ | _
    · rfl
    · exact absurd (List.isEmpty_iff.mp hr) h
  unfold resolveStandard
  rw [hq]
  simp only [Bool.false_eq_true, if_false, hres]
  refine ⟨trivial, trivial, ?_⟩
  simp

/-- C9 witness: on the one-document corpus `[docVue]` and query `vue`, the
search matches, and `resolveStandard` returns the truncated list and the
pre-truncation count. -/
theorem claim_C9_witness :
    searchStandards [docVue] (trimStr ("vue".data)) ≠ []
    ∧ (resolveStandard [docVue] ("vue".data)).results
        = (searchStandards [docVue] (trimStr ("vue".data))).take 10
    ∧ (resolveStandard [docVue] ("vue".data)).totalCount
        = (searchStandards [docVue] (trimStr ("vue".data))).length := by
  have hne : searchStandards [docVue] (trimStr ("vue".data)) ≠ [] := by decide
  have h := claim_C9_resolveStandard [docVue] ("vue".data) hne
  exact ⟨hne, h.1, h.2.1⟩

theorem refresh_newManager (config : StandardsConfig) (t₁ : Nat) :
    ((newManager config).refresh t₁).1
      = { config := config
          cache := ⟨[(allDocumentsKey, ⟨[], t₁, t₁ + config.cacheTimeout * 1000⟩)],
                    config.cacheTimeout * 1000⟩
          documents := []
          sources := []
          initialized := false } := by
  unfold newManager StandardsManager.refresh StandardsManager.loadDocuments
    Cache.clear Cache.get Cache.set
  simp [storeGet, storeSet, loadFromSources]

/-- C10: calling `refresh()` before `initialize()` (sources still empty)
stores an empty document list in the cache under `'all-documents'` with
expiry `t₁ + cacheTimeout·1000`; a subsequent `initialize()` at any time
`t₂` not past that expiry adopts the cached empty corpus, performs zero
adapter `load()` invocations, and leaves the corpus empty even though
sources are configured. -/
theorem claim_C10_refresh_before_initialize (config : StandardsConfig)
    (t₁ t₂ : Nat) (h : t₂ ≤ t₁ + config.cacheTimeout * 1000) :
    storeGet (((newManager config).refresh t₁).1).cache.store allDocumentsKey
        = some ⟨[], t₁, t₁ + config.cacheTimeout * 1000⟩
    ∧ ((((newManager config).refresh t₁).1).initializeM t₂)
        = ({ config := config
             cache := ⟨[(allDocumentsKey,
                         ⟨[], t₁, t₁ + config.cacheTimeout * 1000⟩)],
                       config.cacheTimeout * 1000⟩
             documents := []
             sources := config.sources
             initialized := true }, 0) := by
  have hnotgt : ¬ t₂ > t₁ + config.cacheTimeout * 1000 := by omega
  rw [refresh_newManager]
  constructor
  · simp [storeGet]
  · unfold StandardsManager.initializeM StandardsManager.loadDocuments Cache.get
    simp [storeGet, hnotgt]

/-- C10 witness: with one configured (successfully loading, non-empty)
source, `refresh()` at clock 0 then `initialize()` at clock 1000 (within
the 3600 s TTL) leaves the corpus empty and performs no adapter load. -/
theorem claim_C10_witness :
    ((((newManager ⟨[Except.ok [docC10]], 3600⟩).refresh 0).1).initializeM 1000)
      = ({ config := ⟨[Except.ok [docC10]], 3600⟩
           cache := ⟨[(allDocumentsKey, ⟨[], 0, 3600000⟩)], 3600000⟩
           documents := []
           sources := [Except.ok [docC10]]
           initialized := true }, 0) := by
  have h := claim_C10_refresh_before_initialize ⟨[Except.ok [docC10]], 3600⟩ 0 1000
    (by decide)
  simpa using h.2

theorem splitOnChar_ne_nil (sep : Char) (s : Str) : splitOnChar sep s ≠ [] := by
  cases s with
  | nil => simp [splitOnChar]
  | cons c cs =>
    unfold splitOnChar
    cases splitOnChar sep cs with
    | nil => simp
    | cons h t =>
      by_cases hc : c = sep
      · simp [hc]
      · simp [hc]

theorem splitOnChar_cons_eq (sep c : Char) (cs : Str) (h : Str)
    (t : List Str) (hht : splitOnChar sep cs = h :: t) :
    splitOnChar sep (c :: cs)
      = if c = sep then [] :: h :: t else (c :: h) :: t := by
  unfold splitOnChar
  rw [hht]

theorem joinLinesRec_cons_ne (a : Str) {t : List Str} (h : t ≠ []) :
    joinLinesRec (a :: t) = a ++ '\n' :: joinLinesRec t := by
  cases t with
  | nil => exact absurd rfl h
  | cons b bs => rfl

theorem joinLinesRec_cons_cons (c : Char) (h : Str) (t : List Str) :
    joinLinesRec ((c :: h) :: t) = c :: joinLinesRec (h :: t) := by
  cases t with
  | nil => rfl
  | cons b bs => rfl

theorem joinLinesRec_linesOf (s : Str) : joinLinesRec (linesOf s) = s := by
  unfold linesOf
  induction s with
  | nil => rfl
  | cons c cs ih =>
    obtain ⟨h, t, hht⟩ : ∃ h t, splitOnChar '\n' cs = h :: t := by
      cases hsp : splitOnChar '\n' cs with
      | nil => exact absurd hsp (splitOnChar_ne_nil '\n' cs)
      | cons h t => exact ⟨h, t, rfl⟩
    rw [hht] at ih
    show joinLinesRec (splitOnChar '\n' (c :: cs)) = c :: cs
    rw [splitOnChar_cons_eq '\n' c cs h t hht]
    by_cases hc : c = '\n'
    · subst hc
      rw [if_pos rfl, joinLinesRec_cons_ne [] (List.cons_ne_nil h t), ih]
      rfl
    · rw [if_neg hc, joinLinesRec_cons_cons, ih]

theorem splitOnChar_prepend_noSep (sep : Char) (a rest : Str) (ha : sep ∉ a) :
    splitOnChar sep (a ++ sep :: rest) = a :: splitOnChar sep rest := by
  induction a with
  | nil =>
    obtain ⟨h, t, hht⟩ : ∃ h t, splitOnChar sep rest = h :: t := by
      cases hsp : splitOnChar sep rest with
      | nil => exact absurd hsp (splitOnChar_ne_nil sep rest)
      | cons h t => exact ⟨h, t, rfl⟩
    simp only [List.nil_append]
    rw [splitOnChar_cons_eq sep sep rest h t hht, if_pos rfl, hht]
  | cons x xs ih =>
    have hx : ¬ x = sep := by
      intro hcon
      exact ha (by simp [hcon])
    have ihx := ih (fun hcon => ha (by simp [hcon]))
    simp only [List.cons_append]
    rw [splitOnChar_cons_eq sep x (xs ++ sep :: rest) xs (splitOnChar sep rest) ihx,
      if_neg hx]

theorem linesOf_joinLinesRec_prepend (pre : List Str) (s : Str)
    (hpre : ∀ l ∈ pre, ('\n') ∉ l) :
    linesOf (joinLinesRec (pre ++ linesOf s)) = pre ++ linesOf s := by
  induction pre with
  | nil =>
    simp only [List.nil_append]
    rw [joinLinesRec_linesOf]
  | cons a pre ih =>
    have ha : ('\n') ∉ a := hpre a (by simp)
    have hne : pre ++ linesOf s ≠ [] := by
      intro hcon
      rcases List.append_eq_nil.mp hcon with ⟨_, h2⟩
      exact splitOnChar_ne_nil '\n' s h2
    rw [List.cons_append, joinLinesRec_cons_ne a hne]
    show splitOnChar '\n' (a ++ '\n' :: joinLinesRec (pre ++ linesOf s))
      = a :: (pre ++ linesOf s)
    rw [splitOnChar_prepend_noSep '\n' a _ ha]
    exact congrArg (fun ls => a :: ls) (ih (fun l hl => hpre l (by simp [hl])))

theorem splitAtDelim_append (fmLines rest : List Str)
    (hnd : ('-' :: '-' :: '-' :: []) ∉ fmLines) :
    splitAtDelim (fmLines ++ ('-' :: '-' :: '-' :: []) :: rest)
      = some (fmLines, rest) := by
  induction fmLines with
  | nil => simp [splitAtDelim]
  | cons l ls ih =>
    have hl : ¬ l = ('-' :: '-' :: '-' :: []) := by
      intro hcon
      exact hnd (by simp [hcon])
    have ihl := ih (fun hcon => hnd (by simp [hcon]))
    simp only [List.cons_append]
    unfold splitAtDelim
    rw [if_neg hl, ihl]

theorem matterContent_wellFormed (fmLines : List Str) (body : Str)
    (hnl : ∀ l ∈ fmLines, ('\n') ∉ l)
    (hnd : ('-' :: '-' :: '-' :: []) ∉ fmLines) :
    matterContent (joinLinesRec ((('-' :: '-' :: '-' :: []) :: fmLines)
      ++ (('-' :: '-' :: '-' :: []) :: linesOf body))) = body := by
  have hpre : ∀ l ∈ (('-' :: '-' :: '-' :: []) :: fmLines)
      ++ [('-' :: '-' :: '-' :: [])], ('\n') ∉ l := by
    intro l hl
    rcases List.mem_append.mp hl with hl₁ | hl₂
    · rcases List.mem_cons.mp hl₁ with rfl | hl₃
      · simp
      · exact hnl l hl₃
    · rcases List.mem_singleton.mp hl₂ with rfl
      simp
  have hassoc : (('-' :: '-' :: '-' :: []) :: fmLines)
      ++ (('-' :: '-' :: '-' :: []) :: linesOf body)
      = ((('-' :: '-' :: '-' :: []) :: fmLines)
          ++ [('-' :: '-' :: '-' :: [])]) ++ linesOf body := by
    simp
  rw [hassoc]
  unfold matterContent matterSplit
  rw [linesOf_joinLinesRec_prepend _ body hpre]
  simp [splitAtDelim_append fmLines (linesOf body) hnd, joinLinesRec_linesOf]

theorem matterSplit_cons (first : Str) (rest : List Str) (raw : Str)
    (hls : linesOf raw = first :: rest) :
    matterSplit raw
      = if first = ('-' :: '-' :: '-' :: []) then
          match splitAtDelim rest with
          | some (fmLines, bodyLines) =>
            (fmLines.filterMap fmParseLine, joinLinesRec bodyLines)
          | none => ([], raw)
        else ([], raw) := by
  unfold matterSplit
  rw [hls]

/-- C4: `parseMarkdown` is total by construction (every function of the
model is a total Lean function, on malformed front matter included), and
its `content` field is the input body with the leading front-matter block
removed and surrounding whitespace trimmed: in general `content =
trimStr (matterContent raw)`; a well-formed leading front-matter block is
removed exactly, leaving the body; text with no opening delimiter, or with
an unclosed (malformed) block, passes through unchanged. -/
theorem claim_C4_parseMarkdown_content (content filePath : Str)
    (source : SourceType) (fmLines : List Str) (body : Str)
    (hnl : ∀ l ∈ fmLines, ('\n') ∉ l)
    (hnd : ('-' :: '-' :: '-' :: []) ∉ fmLines) :
    (parseMarkdown content filePath source).content
        = trimStr (matterContent content)
    ∧ matterContent (joinLinesRec ((('-' :: '-' :: '-' :: []) :: fmLines)
        ++ (('-' :: '-' :: '-' :: []) :: linesOf body))) = body
    ∧ ((linesOf content).head? ≠ some ('-' :: '-' :: '-' :: []) →
        matterContent content = content)
    ∧ (∀ rest, linesOf content = ('-' :: '-' :: '-' :: []) :: rest →
        splitAtDelim rest = none → matterContent content = content) := by
  refine ⟨rfl, matterContent_wellFormed fmLines body hnl hnd, ?_, ?_⟩
  · intro hhd
    unfold matterContent
    cases hls : linesOf content with
    | nil =>
      unfold matterSplit
      rw [hls]
    | cons first rest =>
      have hhd₂ : some first ≠ some ('-' :: '-' :: '-' :: []) := by
        rw [hls] at hhd
        simpa using hhd
      have hfirst : ¬ first = ('-' :: '-' :: '-' :: []) := by
        intro hcon
        exact hhd₂ (by rw [hcon])
      rw [matterSplit_cons first rest content hls, if_neg hfirst]
  · intro rest hls hsd
    unfold matterContent
    rw [matterSplit_cons _ rest content hls, if_pos rfl, hsd]

/-- C4 witness: a concrete document with front matter `title: x` and body
`hello`; the parsed content is the trimmed body and the well-formed block
is removed exactly. -/
theorem claim_C4_witness :
    (parseMarkdown ("---\ntitle: x\n---\nhello".data) ("a.md".data)
        SourceType.«local»).content
      = trimStr (matterContent ("---\ntitle: x\n---\nhello".data))
    ∧ matterContent (joinLinesRec ((('-' :: '-' :: '-' :: [])
        :: ["title: x".data])
        ++ (('-' :: '-' :: '-' :: []) :: linesOf ("hello".data))))
      = ("hello".data) := by
  have h := claim_C4_parseMarkdown_content ("---\ntitle: x\n---\nhello".data)
    ("a.md".data) SourceType.«local» ["title: x".data] ("hello".data)
    (by decide) (by decide)
  exact ⟨h.1, h.2.1⟩

/-- C5 counterexample: for the path `notes.markdown` (front matter carries
no id), the code derives the id `notes.markdown` — the `.markdown`
extension is not stripped, while the claim's derivation (which strips
`.md`/`.markdown`) yields `notes`. -/
theorem claim_C5_counterexample :
    (parseMarkdown ("hello".data) ("notes.markdown".data)
        SourceType.«local»).id = ("notes.markdown".data)
    ∧ deriveIdClaim ("notes.markdown".data) = ("notes".data)
    ∧ ("notes.markdown".data) ≠ ("notes".data) := by
  refine ⟨by decide, by decide, by decide⟩

/-- C5 (amended): for every raw text whose front matter carries no (truthy)
id, the document id is `generateId` of the logical path, which equals the
amended derivation — strip a leading `./` or `/`, strip a leading
`standards/` segment, strip a trailing `.md` (but not `.markdown`)
extension case-insensitively, replace path separators with hyphens,
lowercase (backslash separators are first normalized to slashes); in
particular `frontend/vue/components.md` yields `frontend-vue-components`. -/
theorem claim_C5_id_derivation (content filePath : Str) (source : SourceType)
    (hid : jsTruthy (fmStr (matterData content) ("id".data)) = none) :
    (parseMarkdown content filePath source).id = generateId filePath
    ∧ generateId filePath = deriveIdAmended filePath
    ∧ deriveIdAmended ("frontend/vue/components.md".data)
        = ("frontend-vue-components".data) := by
  refine ⟨?_, rfl, by decide⟩
  show jsOrStr (fmStr (matterData content) ("id".data)) (generateId filePath)
      = generateId filePath
  unfold jsOrStr
  rw [hid]
  rfl

/-- C5 witness: a concrete markdown body with no front matter at path
`frontend/vue/components.md` receives the id `frontend-vue-components`. -/
theorem claim_C5_witness :
    (parseMarkdown ("# hi".data) ("frontend/vue/components.md".data)
        SourceType.«local»).id = ("frontend-vue-components".data) := by
  have h := claim_C5_id_derivation ("# hi".data)
    ("frontend/vue/components.md".data) SourceType.«local» (by decide)
  rw [h.1, h.2.1]
  exact h.2.2

theorem foldl_toList_filterMap {α β : Type} (f : α → Option β) (l : List α)
    (acc : List β) :
    l.foldl (fun ds x => ds ++ (f x).toList) acc = acc ++ l.filterMap f := by
  induction l generalizing acc with
  | nil => simp
  | cons x t ih =>
    simp only [List.foldl_cons, List.filterMap_cons, ih]
    cases f x with
    | none => simp
    | some b => simp

theorem transformStandards_eq (url : Str) (standards : List RemoteStandard) :
    transformStandards url standards = standards.filterMap (recordToDoc url) := by
  have hstep : ∀ (documents : List StandardDocument) (standard : RemoteStandard),
      (if standard.content.isEmpty || !isValidMarkdown standard.content then
        documents
      else if ("---".data).isPrefixOf standard.content then
        documents ++ [parseMarkdown standard.content
          (standard.category ++ '/' :: standard.id ++ (".md".data))
          SourceType.remote]
      else
        documents ++ [{ id := standard.id
                        title := standard.title
                        description := standard.description
                        category := standard.category
                        subcategory := standard.subcategory
                        tags := standard.tags.getD []
                        version := standard.version
                        lastUpdated := standard.lastUpdated
                        source := SourceType.remote
                        path := url ++ '/' :: standard.id
                        content := standard.content
                        frontmatter := [] }])
      = documents ++ (recordToDoc url standard).toList := by
    intro documents standard
    unfold recordToDoc
    by_cases h1 : (standard.content.isEmpty || !isValidMarkdown standard.content) = true
    · simp [h1]
    · by_cases h2 : ("---".data).isPrefixOf standard.content
      · simp [h1, h2]
      · simp [h1, h2]
  unfold transformStandards
  simp only [hstep]
  rw [foldl_toList_filterMap]
  rfl

/-- C7: `RemoteSource.load` selects among three mutually exclusive modes in
priority order: (a) a non-empty explicit docs list makes it fetch each
listed URL as one raw Markdown file; (b) otherwise a URL with a markdown
extension is fetched as a single raw Markdown file; (c) otherwise the URL
is treated as a JSON API whose `standards`-else-`data` array is
transformed record by record — a record whose content starts with the
front-matter delimiter is normalized via `parseMarkdown`, a record without
one is used directly as a fully formed document (records with
empty/invalid content are skipped). -/
theorem claim_C7_remote_modes (env : FetchEnv) (src : RemoteSource) :
    (¬ src.docs = [] →
      remoteLoad env src = src.docs.filterMap (loadMarkdownFile env))
    ∧ (src.docs = [] → isMarkdownUrl src.url = true →
      remoteLoad env src = (loadMarkdownFile env ⟨src.url, none, none⟩).toList)
    ∧ (src.docs = [] → isMarkdownUrl src.url = false →
      remoteLoad env src =
        match env.fetchJson src.url with
        | none => []
        | some respData =>
          (respData.standards.getD (respData.data.getD [])).filterMap
            (recordToDoc src.url)) := by
  refine ⟨?_, ?_, ?_⟩
  · intro h
    unfold remoteLoad
    cases hd : src.docs with
    | nil => exact absurd hd h
    | cons a t => simp [hd]
  · intro h hmd
    unfold remoteLoad
    simp [h, hmd]
  · intro h hmd
    unfold remoteLoad loadFromApi
    simp only [h, hmd]
    cases hj : env.fetchJson src.url with
    | none => simp [hj]
    | some respData => simp [hj, transformStandards_eq]

/-- C7 witness: a source whose URL `https://h/a.md` is itself a Markdown
file and whose docs list is empty takes mode (b). -/
theorem claim_C7_witness :
    remoteLoad envMd srcMd
        = (loadMarkdownFile envMd ⟨("https://h/a.md".data), none, none⟩).toList
    ∧ isMarkdownUrl ("https://h/a.md".data) = true := by
  have h := claim_C7_remote_modes envMd srcMd
  exact ⟨h.2.1 rfl (by decide), by decide⟩

end DevStandards
